import Mathlib

/-!
Shallow embedding of the market-data normalization and technical-indicator
pipeline of `stock_chart_pro.py`.

An OHLCV close series is modelled as a `List ℚ` (one close value per
timestamp, clean data, no missing cells).  An indicator series aligned to the
same timestamp axis is a `List (Option ℚ)` of the same length, `none`
standing for an undefined (NaN) point, exactly as pandas produces NaN during
the rolling-window warm-up.  Where IEEE special values (`inf`, `nan`) are
reachable (the RSI pipeline divides by a possibly-zero average loss) the
value domain is the type `FVal` of exact rationals extended with the three
special values, with the IEEE arithmetic rules for them.
-/

namespace StockChartPro

/-- `close.rolling(window=w).mean()`: the trailing mean over `w` points,
`none` (NaN) until `w` observations have accumulated.  pandas' default
`min_periods` equals the window, so position `i` is defined iff `w ≤ i+1`. -/
def rollingMean (xs : List ℚ) (w : ℕ) : List (Option ℚ) :=
  (List.range xs.length).map (fun i =>
    if 1 ≤ w ∧ w ≤ i + 1 then
      some (((xs.take (i + 1)).drop (i + 1 - w)).sum / (w : ℚ))
    else none)

/-- `calculate_sma(data, window)` from `stock_chart_pro.py`:
`data['Close'].rolling(window=window).mean()`. -/
def calculate_sma (close : List ℚ) (window : ℕ) : List (Option ℚ) :=
  rollingMean close window

/-- The tail of the `ewm(span, adjust=False).mean()` recurrence:
given the previous output `prev`, each new input `x` contributes
`(1-a)*prev + a*x`. -/
def ewmFrom (a prev : ℚ) : List ℚ → List ℚ
  | [] => []
  | x :: rest => ((1 - a) * prev + a * x) :: ewmFrom a ((1 - a) * prev + a * x) rest

/-- `series.ewm(span=span, adjust=False).mean()`: the causal exponential
moving average with smoothing factor `a = 2/(span+1)`, seeded by the first
observed value. -/
def ewmMean (xs : List ℚ) (span : ℕ) : List ℚ :=
  match xs with
  | [] => []
  | x :: rest => x :: ewmFrom (2 / ((span : ℚ) + 1)) x rest

/-- `calculate_ema(data, window)` from `stock_chart_pro.py`:
`data['Close'].ewm(span=window, adjust=False).mean()`. -/
def calculate_ema (close : List ℚ) (window : ℕ) : List ℚ :=
  ewmMean close window

/-- `close.rolling(window=w).std() ** 2`: the trailing sample variance
(pandas' default `ddof=1`).  A point is defined iff the window is full and
`2 ≤ w` (with `ddof=1` a one-point window divides by zero and pandas yields
NaN). -/
def rollingVar (xs : List ℚ) (w : ℕ) : List (Option ℚ) :=
  (List.range xs.length).map (fun i =>
    if 2 ≤ w ∧ w ≤ i + 1 then
      some ((((xs.take (i + 1)).drop (i + 1 - w)).map
          (fun x => (x - ((xs.take (i + 1)).drop (i + 1 - w)).sum / (w : ℚ)) ^ 2)).sum
        / ((w : ℚ) - 1))
    else none)

/-- `sma + std * num_std`: the upper Bollinger band.  NaN (here `none`) in
either operand propagates, as float arithmetic does. -/
noncomputable def bollinger_upper (xs : List ℚ) (w : ℕ) (k : ℚ) : List (Option ℝ) :=
  List.zipWith (fun s v => match s, v with
    | some m, some vv => some ((m : ℝ) + Real.sqrt (vv : ℝ) * (k : ℝ))
    | _, _ => none) (calculate_sma xs w) (rollingVar xs w)

/-- `sma - std * num_std`: the lower Bollinger band. -/
noncomputable def bollinger_lower (xs : List ℚ) (w : ℕ) (k : ℚ) : List (Option ℝ) :=
  List.zipWith (fun s v => match s, v with
    | some m, some vv => some ((m : ℝ) - Real.sqrt (vv : ℝ) * (k : ℝ))
    | _, _ => none) (calculate_sma xs w) (rollingVar xs w)

/-- `calculate_bollinger_bands(data, window, num_std)` from
`stock_chart_pro.py`: returns `(upper_band, sma, lower_band)`. -/
noncomputable def calculate_bollinger_bands (close : List ℚ) (window : ℕ) (num_std : ℚ) :
    List (Option ℝ) × List (Option ℚ) × List (Option ℝ) :=
  (bollinger_upper close window num_std, calculate_sma close window,
    bollinger_lower close window num_std)

/-- IEEE-style value domain: exact rationals extended by `+inf`, `-inf` and
`nan`.  Reached only in the RSI pipeline, where a float division by a zero
average loss yields `inf` (positive numerator) or `nan` (`0/0`). -/
inductive FVal where
  | fin : ℚ → FVal
  | pinf : FVal
  | ninf : FVal
  | nan : FVal
deriving DecidableEq, Repr

namespace FVal

/-- IEEE addition on the extended domain (no rounding: the embedding keeps
rationals exact). -/
def add : FVal → FVal → FVal
  | fin a, fin b => fin (a + b)
  | fin _, pinf => pinf
  | fin _, ninf => ninf
  | pinf, fin _ => pinf
  | ninf, fin _ => ninf
  | pinf, pinf => pinf
  | ninf, ninf => ninf
  | pinf, ninf => nan
  | ninf, pinf => nan
  | nan, _ => nan
  | _, nan => nan

/-- IEEE subtraction on the extended domain. -/
def sub : FVal → FVal → FVal
  | fin a, fin b => fin (a - b)
  | fin _, pinf => ninf
  | fin _, ninf => pinf
  | pinf, fin _ => pinf
  | ninf, fin _ => ninf
  | pinf, ninf => pinf
  | ninf, pinf => ninf
  | pinf, pinf => nan
  | ninf, ninf => nan
  | nan, _ => nan
  | _, nan => nan

/-- IEEE division on the extended domain: a nonzero finite value divided by
zero gives a signed infinity, `0/0` gives `nan`, finite over infinite gives
zero. -/
def div : FVal → FVal → FVal
  | fin a, fin b =>
      if b ≠ 0 then fin (a / b)
      else if a = 0 then nan
      else if 0 < a then pinf
      else ninf
  | fin _, pinf => fin 0
  | fin _, ninf => fin 0
  | pinf, fin b => if 0 ≤ b then pinf else ninf
  | ninf, fin b => if 0 ≤ b then ninf else pinf
  | pinf, pinf => nan
  | pinf, ninf => nan
  | ninf, pinf => nan
  | ninf, ninf => nan
  | nan, _ => nan
  | _, nan => nan

/-- Whether the value is `nan`. -/
def isNan : FVal → Bool
  | nan => true
  | _ => false

end FVal

/-- A NaN cell of a pandas series (`none`) maps to `FVal.nan`. -/
def toFVal : Option ℚ → FVal
  | none => FVal.nan
  | some q => FVal.fin q

/-- `close.diff()`: first difference, NaN (`none`) at index 0. -/
def diffList (xs : List ℚ) : List (Option ℚ) :=
  match xs with
  | [] => []
  | _ :: rest => none :: (List.zipWith (fun a b => a - b) rest xs).map some

/-- `delta.where(delta > 0, 0)`: keep positive deltas, everything else
(including the leading NaN, whose comparison with 0 is false) becomes 0. -/
def gainList (xs : List ℚ) : List ℚ :=
  (diffList xs).map (fun d => match d with
    | some v => if 0 < v then v else 0
    | none => 0)

/-- `-delta.where(delta < 0, 0)`: magnitude of negative deltas, everything
else (including the leading NaN) becomes 0. -/
def lossList (xs : List ℚ) : List ℚ :=
  (diffList xs).map (fun d => match d with
    | some v => if v < 0 then -v else 0
    | none => 0)

/-- `gain.rolling(window).mean()`: the average gain of the trailing window. -/
def rsiGainAvg (close : List ℚ) (window : ℕ) : List (Option ℚ) :=
  rollingMean (gainList close) window

/-- `loss.rolling(window).mean()`: the average loss of the trailing window. -/
def rsiLossAvg (close : List ℚ) (window : ℕ) : List (Option ℚ) :=
  rollingMean (lossList close) window

/-- Pointwise subtraction of possibly-undefined (NaN) chart values: an
undefined operand makes the result undefined, as float subtraction
propagates NaN. -/
def osub (a b : Option ℝ) : Option ℝ :=
  match a, b with
  | some x, some y => some (x - y)
  | _, _ => none

/-- `calculate_rsi(data, window)` from `stock_chart_pro.py`:
`rs = gain / loss; rsi = 100 - (100 / (1 + rs))`, with float semantics for
the division (zero loss with positive gain gives `inf`, hence RSI `100`;
`0/0` gives `nan`). -/
def calculate_rsi (close : List ℚ) (window : ℕ) : List FVal :=
  (List.zipWith (fun g l => toFVal g |>.div (toFVal l))
      (rsiGainAvg close window) (rsiLossAvg close window)).map
    (fun rs => (FVal.fin 100).sub ((FVal.fin 100).div ((FVal.fin 1).add rs)))

/-- `calculate_macd(data, fast, slow, signal)` from `stock_chart_pro.py`:
`macd_line = EMA(fast) - EMA(slow)`, `signal_line = EMA(signal)` of the MACD
line, `histogram = macd_line - signal_line`. -/
def calculate_macd (close : List ℚ) (fast slow signal : ℕ) :
    List ℚ × List ℚ × List ℚ :=
  let macd_line := List.zipWith (fun a b => a - b)
    (ewmMean close fast) (ewmMean close slow)
  let signal_line := ewmMean macd_line signal
  (macd_line, signal_line, List.zipWith (fun a b => a - b) macd_line signal_line)

/-- Column axis of a raw provider table: either flat string labels or the
two-level (price-type, symbol) labels yfinance produces for some requests. -/
inductive Cols where
  | flat : List String → Cols
  | nested : List (String × String) → Cols
deriving DecidableEq, Repr

/-- Number of column labels. -/
def Cols.ncols : Cols → ℕ
  | flat ns => ns.length
  | nested ns => ns.length

/-- A raw tabular result: a column axis, a timestamp index, and one list of
cells per row (positional, parallel to the column axis). -/
structure DF where
  cols : Cols
  index : List ℤ
  rows : List (List ℚ)
deriving DecidableEq, Repr

/-- `df.empty`: true when any axis has length zero. -/
def DF.isEmpty (df : DF) : Bool :=
  df.rows.isEmpty || df.cols.ncols == 0

/-- `df.columns.get_level_values(0)` on a MultiIndex, the identity on flat
columns. -/
def flattenCols : Cols → List String
  | .flat ns => ns
  | .nested ns => ns.map Prod.fst

/-- The `expected_cols` list of `fix_dataframe_columns`. -/
def expected_cols : List String := ["Open", "High", "Low", "Close", "Volume"]

/-- Python's `str.lower()`, character by character (the column names in play
are ASCII, where this is exact). -/
def lowerStr (s : String) : String :=
  String.mk (s.data.map Char.toLower)

/-- One iteration of the repair loop: if the expected name `c` is absent,
find the first case-insensitive match and rename every column bearing that
label to `c` (pandas `rename` relabels by value, so duplicates of the first
match are all renamed). -/
def renameStep (names : List String) (c : String) : List String :=
  if c ∈ names then names
  else match names.find? (fun n => lowerStr n == lowerStr c) with
    | some n => names.map (fun x => if x == n then c else x)
    | none => names

/-- The full repair loop over the five expected columns. -/
def fixNames (names : List String) : List String :=
  expected_cols.foldl renameStep names

/-- `fix_dataframe_columns(df)` from `stock_chart_pro.py`: `None` and empty
tables are returned unchanged; otherwise nested columns are flattened to
their outer level and the five expected names are repaired
case-insensitively. -/
def fix_dataframe_columns (odf : Option DF) : Option DF :=
  match odf with
  | none => none
  | some df =>
    if df.isEmpty then some df
    else some { df with cols := .flat (fixNames (flattenCols df.cols)) }

/-- `download_stock_data(ticker, period, interval)` from
`stock_chart_pro.py`, with the provider call abstracted as its result: an
exception becomes `(None, str(e))`, an empty table becomes
`(None, "No data available for this combination")`, otherwise the fixed
table is returned with no error. -/
def download_stock_data (fetched : Except String DF) : Option DF × Option String :=
  match fetched with
  | .error e => (none, some e)
  | .ok data =>
    if data.isEmpty then (none, some "No data available for this combination")
    else (fix_dataframe_columns (some data), none)

/-- `((close[-1] - close[0]) / close[0]) * 100`: the period return used by
`print_summary` and `print_comparison_summary`. -/
def periodReturn (close : List ℚ) : ℚ :=
  (close.getLastD 0 - close.headD 0) / close.headD 0 * 100

/-- The decision logic of `print_comparison_summary(voo_data, jepi_data)`:
which ticker is announced as outperformer and by how much.  The source
prints `VOO outperformed` with differential `voo - jepi` when
`voo_return > jepi_return`, otherwise `JEPI outperformed` with differential
`jepi - voo`. -/
def print_comparison_summary (voo_close jepi_close : List ℚ) : String × ℚ :=
  let voo_return := periodReturn voo_close
  let jepi_return := periodReturn jepi_close
  if jepi_return < voo_return then ("VOO", voo_return - jepi_return)
  else ("JEPI", jepi_return - voo_return)

/-! ### Helper lemmas about the rolling mean -/

theorem rollingMean_length (xs : List ℚ) (w : ℕ) :
    (rollingMean xs w).length = xs.length := by
  simp [rollingMean]

theorem rollingMean_getD (xs : List ℚ) (w : ℕ) (i : ℕ) (h : i < xs.length) :
    (rollingMean xs w).getD i none =
      if 1 ≤ w ∧ w ≤ i + 1 then
        some (((xs.take (i + 1)).drop (i + 1 - w)).sum / (w : ℚ))
      else none := by
  simp [rollingMean, List.getD_eq_getElem?_getD, List.getElem?_map, List.getElem?_range h]

theorem rollingMean_getD_of_le (xs : List ℚ) (w : ℕ) (i : ℕ) (h : xs.length ≤ i) :
    (rollingMean xs w).getD i none = none := by
  rw [List.getD_eq_getElem?_getD, List.getElem?_eq_none]
  · rfl
  · rw [rollingMean_length]; exact h

theorem countP_range_window (w L : ℕ) :
    (List.range L).countP (fun i => decide (w ≤ i + 1)) = L - (w - 1) := by
  induction L with
  | zero => simp
  | succ n ih =>
    rw [List.range_succ, List.countP_append, ih]
    by_cases h : w ≤ n + 1
    · simp [h]
      omega
    · simp [h]
      omega

/-! ### Helper lemmas about the exponential moving average -/

theorem ewmFrom_length (a p : ℚ) (xs : List ℚ) :
    (ewmFrom a p xs).length = xs.length := by
  induction xs generalizing p with
  | nil => rfl
  | cons x rest ih => simp [ewmFrom, ih]

theorem ewmMean_length (xs : List ℚ) (w : ℕ) :
    (ewmMean xs w).length = xs.length := by
  cases xs with
  | nil => rfl
  | cons x rest => simp [ewmMean, ewmFrom_length]

theorem ewmMean_getD_zero (xs : List ℚ) (w : ℕ) :
    (ewmMean xs w).getD 0 0 = xs.getD 0 0 := by
  cases xs <;> simp [ewmMean]

theorem ewmFrom_getD_succ (a : ℚ) (xs : List ℚ) :
    ∀ (p : ℚ) (t : ℕ), t + 1 < xs.length →
      (ewmFrom a p xs).getD (t + 1) 0 =
        (1 - a) * (ewmFrom a p xs).getD t 0 + a * xs.getD (t + 1) 0 := by
  induction xs with
  | nil => intro p t h; simp at h
  | cons x rest ih =>
    intro p t h
    cases t with
    | zero =>
      cases rest with
      | nil => simp at h
      | cons r rest' => simp [ewmFrom]
    | succ s =>
      have h' : s + 1 < rest.length := by simp at h; omega
      simp only [ewmFrom, List.getD_cons_succ]
      exact ih _ s h'

theorem ewmMean_getD_succ (xs : List ℚ) (w : ℕ) (t : ℕ) (h : t + 1 < xs.length) :
    (ewmMean xs w).getD (t + 1) 0 =
      (1 - 2 / ((w : ℚ) + 1)) * (ewmMean xs w).getD t 0
        + 2 / ((w : ℚ) + 1) * xs.getD (t + 1) 0 := by
  cases xs with
  | nil => simp at h
  | cons x rest =>
    cases t with
    | zero =>
      cases rest with
      | nil => simp at h
      | cons r rest' => simp [ewmMean, ewmFrom]
    | succ s =>
      have h' : s + 1 < rest.length := by simp at h; omega
      simp only [ewmMean, List.getD_cons_succ]
      exact ewmFrom_getD_succ _ rest x s h'

theorem ewmFrom_getD_take (a : ℚ) (xs : List ℚ) :
    ∀ (p : ℚ) (n t : ℕ), t < n →
      (ewmFrom a p xs).getD t 0 = (ewmFrom a p (xs.take n)).getD t 0 := by
  induction xs with
  | nil => intro p n t _; simp
  | cons x rest ih =>
    intro p n t h
    cases n with
    | zero => omega
    | succ m =>
      cases t with
      | zero => simp [ewmFrom, List.take_succ_cons]
      | succ s =>
        simp only [List.take_succ_cons, ewmFrom, List.getD_cons_succ]
        exact ih _ m s (by omega)

theorem ewm_causal (xs ys : List ℚ) (w t : ℕ)
    (hx : t < xs.length) (hy : t < ys.length)
    (htake : xs.take (t + 1) = ys.take (t + 1)) :
    (ewmMean xs w).getD t 0 = (ewmMean ys w).getD t 0 := by
  cases xs with
  | nil => simp at hx
  | cons x rest =>
    cases ys with
    | nil => simp at hy
    | cons y rest' =>
      simp only [List.take_succ_cons, List.cons.injEq] at htake
      obtain ⟨hxy, htails⟩ := htake
      subst hxy
      cases t with
      | zero => simp [ewmMean]
      | succ s =>
        simp only [ewmMean, List.getD_cons_succ]
        rw [ewmFrom_getD_take _ rest x (s + 1) s (by omega),
          ewmFrom_getD_take _ rest' x (s + 1) s (by omega), htails]

/-! ### Claim theorems -/

/-- C1: for every close series of length `L` and window `w ≥ 1`,
`calculate_sma` stays aligned to the timestamp axis (same length), has
exactly `max(0, L-w+1)` defined points, the first `w-1` points undefined,
and each defined point `i` equal to the arithmetic mean of the closes at
indices `i-w+1 .. i`. -/
theorem sma_window_spec (xs : List ℚ) (w : ℕ) (hw : 1 ≤ w) :
    (calculate_sma xs w).length = xs.length ∧
    (((calculate_sma xs w).countP (fun o => o.isSome) : ℤ) =
      max 0 ((xs.length : ℤ) - w + 1)) ∧
    (∀ i, i + 1 < w → (calculate_sma xs w).getD i none = none) ∧
    (∀ i, i < xs.length → w ≤ i + 1 →
      (calculate_sma xs w).getD i none =
        some (((xs.drop (i + 1 - w)).take w).sum / (w : ℚ))) := by
  refine ⟨rollingMean_length xs w, ?_, ?_, ?_⟩
  · have hc : (calculate_sma xs w).countP (fun o => o.isSome) =
        xs.length - (w - 1) := by
      unfold calculate_sma rollingMean
      rw [List.countP_map]
      have hfun : ((fun o : Option ℚ => o.isSome) ∘ fun i =>
          if 1 ≤ w ∧ w ≤ i + 1 then
            some (((xs.take (i + 1)).drop (i + 1 - w)).sum / (w : ℚ))
          else none) = fun i => decide (w ≤ i + 1) := by
        funext i
        by_cases h : w ≤ i + 1 <;> simp [h, hw]
      rw [hfun, countP_range_window]
    rw [hc]
    omega
  · intro i hi
    by_cases h : i < xs.length
    · rw [show calculate_sma xs w = rollingMean xs w from rfl,
        rollingMean_getD xs w i h, if_neg]
      rintro ⟨-, h2⟩
      omega
    · exact rollingMean_getD_of_le xs w i (by omega)
  · intro i hlen hwi
    have hlist : (xs.take (i + 1)).drop (i + 1 - w) = (xs.drop (i + 1 - w)).take w := by
      rw [List.drop_take]
      congr 1
      omega
    rw [show calculate_sma xs w = rollingMean xs w from rfl,
      rollingMean_getD xs w i hlen, if_pos ⟨hw, hwi⟩, hlist]

/-- Witness for C1 at the series `[1, 2, 3]` with window `2`. -/
theorem sma_window_spec_witness :
    1 ≤ 2 ∧
    ((calculate_sma [1, 2, 3] 2).length = ([1, 2, 3] : List ℚ).length ∧
    (((calculate_sma [1, 2, 3] 2).countP (fun o => o.isSome) : ℤ) =
      max 0 ((([1, 2, 3] : List ℚ).length : ℤ) - 2 + 1)) ∧
    (∀ i, i + 1 < 2 → (calculate_sma [1, 2, 3] 2).getD i none = none) ∧
    (∀ i, i < ([1, 2, 3] : List ℚ).length → 2 ≤ i + 1 →
      (calculate_sma [1, 2, 3] 2).getD i none =
        some (((([1, 2, 3] : List ℚ).drop (i + 1 - 2)).take 2).sum / (2 : ℚ)))) :=
  ⟨by decide, sma_window_spec [1, 2, 3] 2 (by decide)⟩

/-- C2: for every non-empty close series and window `w ≥ 1`,
`calculate_ema` follows the causal recurrence `y_0 = close_0`,
`y_{t+1} = (1-a)*y_t + a*close_{t+1}` with `a = 2/(w+1)` (seeded by the
first observed close), and every output point depends only on past and
current close values. -/
theorem ema_recurrence_spec (xs : List ℚ) (w : ℕ) (hxs : xs ≠ []) (hw : 1 ≤ w) :
    (calculate_ema xs w).length = xs.length ∧
    (calculate_ema xs w).getD 0 0 = xs.getD 0 0 ∧
    (∀ t, t + 1 < xs.length →
      (calculate_ema xs w).getD (t + 1) 0 =
        (1 - 2 / ((w : ℚ) + 1)) * (calculate_ema xs w).getD t 0
          + 2 / ((w : ℚ) + 1) * xs.getD (t + 1) 0) ∧
    (∀ ys t, t < xs.length → t < ys.length → xs.take (t + 1) = ys.take (t + 1) →
      (calculate_ema xs w).getD t 0 = (calculate_ema ys w).getD t 0) :=
  ⟨ewmMean_length xs w, ewmMean_getD_zero xs w,
    fun t ht => ewmMean_getD_succ xs w t ht,
    fun ys t hx hy htake => ewm_causal xs ys w t hx hy htake⟩

/-- Witness for C2 at the series `[1, 2]` with window `2`. -/
theorem ema_recurrence_spec_witness :
    ([1, 2] : List ℚ) ≠ [] ∧ 1 ≤ 2 ∧
    ((calculate_ema [1, 2] 2).length = ([1, 2] : List ℚ).length ∧
    (calculate_ema [1, 2] 2).getD 0 0 = ([1, 2] : List ℚ).getD 0 0 ∧
    (∀ t, t + 1 < ([1, 2] : List ℚ).length →
      (calculate_ema [1, 2] 2).getD (t + 1) 0 =
        (1 - 2 / ((2 : ℚ) + 1)) * (calculate_ema [1, 2] 2).getD t 0
          + 2 / ((2 : ℚ) + 1) * ([1, 2] : List ℚ).getD (t + 1) 0) ∧
    (∀ ys t, t < ([1, 2] : List ℚ).length → t < ys.length →
      ([1, 2] : List ℚ).take (t + 1) = ys.take (t + 1) →
      (calculate_ema [1, 2] 2).getD t 0 = (calculate_ema ys 2).getD t 0)) :=
  ⟨by decide, by decide, ema_recurrence_spec [1, 2] 2 (by decide) (by decide)⟩

/-- C9: the comparison summary computes each asset's period return as
`(latest - first) / first * 100`, names as outperformer the asset with the
strictly higher return with the absolute return difference as differential,
and on an exact tie reports JEPI (the `else` branch of the source's
`voo_return > jepi_return` test). -/
theorem comparison_summary_spec (voo jepi : List ℚ) (hv : voo ≠ []) (hj : jepi ≠ []) :
    periodReturn voo = (voo.getLastD 0 - voo.headD 0) / voo.headD 0 * 100 ∧
    (periodReturn jepi < periodReturn voo →
      print_comparison_summary voo jepi =
        ("VOO", periodReturn voo - periodReturn jepi)) ∧
    (periodReturn voo < periodReturn jepi →
      print_comparison_summary voo jepi =
        ("JEPI", periodReturn jepi - periodReturn voo)) ∧
    (periodReturn voo = periodReturn jepi →
      print_comparison_summary voo jepi = ("JEPI", 0)) ∧
    (print_comparison_summary voo jepi).2 = |periodReturn voo - periodReturn jepi| := by
  refine ⟨rfl, ?_, ?_, ?_, ?_⟩
  · intro h
    simp only [print_comparison_summary]
    rw [if_pos h]
  · intro h
    simp only [print_comparison_summary]
    rw [if_neg (not_lt.mpr h.le)]
  · intro h
    simp only [print_comparison_summary]
    rw [if_neg (by rw [h]; exact lt_irrefl _), h, sub_self]
  · rcases lt_trichotomy (periodReturn jepi) (periodReturn voo) with h | h | h
    · simp only [print_comparison_summary]
      rw [if_pos h, abs_of_pos (sub_pos.mpr h)]
    · simp only [print_comparison_summary]
      rw [if_neg (by rw [h]; exact lt_irrefl _), h]
      simp
    · simp only [print_comparison_summary]
      rw [if_neg (not_lt.mpr h.le), abs_of_neg (sub_neg.mpr h), neg_sub]

/-- Witness for C9 at close series `[100, 105]` (return 5%) and
`[100, 103]` (return 3%). -/
theorem comparison_summary_spec_witness :
    ([100, 105] : List ℚ) ≠ [] ∧ ([100, 103] : List ℚ) ≠ [] ∧
    (periodReturn [100, 105] =
      (([100, 105] : List ℚ).getLastD 0 - ([100, 105] : List ℚ).headD 0) /
        ([100, 105] : List ℚ).headD 0 * 100 ∧
    (periodReturn [100, 103] < periodReturn [100, 105] →
      print_comparison_summary [100, 105] [100, 103] =
        ("VOO", periodReturn [100, 105] - periodReturn [100, 103])) ∧
    (periodReturn [100, 105] < periodReturn [100, 103] →
      print_comparison_summary [100, 105] [100, 103] =
        ("JEPI", periodReturn [100, 103] - periodReturn [100, 105])) ∧
    (periodReturn [100, 105] = periodReturn [100, 103] →
      print_comparison_summary [100, 105] [100, 103] = ("JEPI", 0)) ∧
    (print_comparison_summary [100, 105] [100, 103]).2 =
      |periodReturn [100, 105] - periodReturn [100, 103]|) :=
  ⟨by decide, by decide,
    comparison_summary_spec [100, 105] [100, 103] (by decide) (by decide)⟩

/-! ### Helper lemmas about the RSI pipeline -/

theorem diffList_length (xs : List ℚ) : (diffList xs).length = xs.length := by
  cases xs with
  | nil => rfl
  | cons x rest => simp [diffList]

theorem gainList_length (xs : List ℚ) : (gainList xs).length = xs.length := by
  simp [gainList, diffList_length]

theorem lossList_length (xs : List ℚ) : (lossList xs).length = xs.length := by
  simp [lossList, diffList_length]

theorem gainList_nonneg (xs : List ℚ) : ∀ y ∈ gainList xs, 0 ≤ y := by
  intro y hy
  simp only [gainList, List.mem_map] at hy
  obtain ⟨d, -, rfl⟩ := hy
  cases d with
  | none => exact le_refl 0
  | some v =>
    by_cases h : 0 < v
    · simp [h, h.le]
    · simp [h]

theorem lossList_nonneg (xs : List ℚ) : ∀ y ∈ lossList xs, 0 ≤ y := by
  intro y hy
  simp only [lossList, List.mem_map] at hy
  obtain ⟨d, -, rfl⟩ := hy
  cases d with
  | none => exact le_refl 0
  | some v =>
    by_cases h : v < 0
    · simp only [h, if_true]
      linarith
    · simp [h]

theorem rollingMean_nonneg (l : List ℚ) (w i : ℕ) (hl : ∀ y ∈ l, 0 ≤ y) (q : ℚ)
    (h : (rollingMean l w).getD i none = some q) : 0 ≤ q := by
  by_cases hi : i < l.length
  · rw [rollingMean_getD l w i hi] at h
    by_cases hc : 1 ≤ w ∧ w ≤ i + 1
    · rw [if_pos hc, Option.some.injEq] at h
      subst h
      apply div_nonneg
      · apply List.sum_nonneg
        intro y hy
        exact hl y (List.take_subset _ _ (List.drop_subset _ _ hy))
      · exact Nat.cast_nonneg w
    · rw [if_neg hc] at h
      cases h
  · rw [rollingMean_getD_of_le l w i (by omega)] at h
    cases h

theorem getD_mem_of_lt {α : Type} (l : List α) (i : ℕ) (d : α) (h : i < l.length) :
    l.getD i d ∈ l := by
  rw [List.getD_eq_getElem?_getD, List.getElem?_eq_getElem h]
  exact List.getElem_mem h

theorem rsiGainAvg_length (xs : List ℚ) (w : ℕ) :
    (rsiGainAvg xs w).length = xs.length := by
  simp [rsiGainAvg, rollingMean_length, gainList_length]

theorem rsiLossAvg_length (xs : List ℚ) (w : ℕ) :
    (rsiLossAvg xs w).length = xs.length := by
  simp [rsiLossAvg, rollingMean_length, lossList_length]

theorem calculate_rsi_getD (xs : List ℚ) (w i : ℕ) (hi : i < xs.length) :
    (calculate_rsi xs w).getD i FVal.nan =
      (FVal.fin 100).sub ((FVal.fin 100).div ((FVal.fin 1).add
        ((toFVal ((rsiGainAvg xs w).getD i none)).div
          (toFVal ((rsiLossAvg xs w).getD i none))))) := by
  have hg : i < (rsiGainAvg xs w).length := by rw [rsiGainAvg_length]; exact hi
  have hl : i < (rsiLossAvg xs w).length := by rw [rsiLossAvg_length]; exact hi
  simp only [calculate_rsi]
  rw [List.getD_eq_getElem?_getD, List.getElem?_map, List.getElem?_zipWith,
    List.getElem?_eq_getElem hg, List.getElem?_eq_getElem hl,
    List.getD_eq_getElem?_getD, List.getD_eq_getElem?_getD,
    List.getElem?_eq_getElem hg, List.getElem?_eq_getElem hl]
  rfl

theorem rollingMean_all_none (l : List ℚ) (w : ℕ) (h : l.length < w) :
    rollingMean l w = List.replicate l.length none := by
  rw [rollingMean,
    List.map_congr_left (g := fun _ => (none : Option ℚ)) ?_]
  · rw [show (fun _ : ℕ => (none : Option ℚ)) = Function.const ℕ none from rfl,
      List.map_const, List.length_range]
  · intro i hi
    rw [if_neg]
    rintro ⟨-, h2⟩
    have := List.mem_range.mp hi
    omega

theorem rollingVar_all_none (l : List ℚ) (w : ℕ) (h : l.length < w) :
    rollingVar l w = List.replicate l.length none := by
  rw [rollingVar,
    List.map_congr_left (g := fun _ => (none : Option ℚ)) ?_]
  · rw [show (fun _ : ℕ => (none : Option ℚ)) = Function.const ℕ none from rfl,
      List.map_const, List.length_range]
  · intro i hi
    rw [if_neg]
    rintro ⟨-, h2⟩
    have := List.mem_range.mp hi
    omega

/-- C3: the Bollinger middle band is exactly `calculate_sma`, and the bands
are symmetric about it: the pointwise difference `upper - middle` equals
`middle - lower` (with NaN-propagating subtraction, so both sides are also
undefined at exactly the same points). -/
theorem bollinger_symmetry_spec (xs : List ℚ) (w : ℕ) (k : ℚ) :
    (calculate_bollinger_bands xs w k).2.1 = calculate_sma xs w ∧
    ∀ i,
      osub ((calculate_bollinger_bands xs w k).1.getD i none)
        (((calculate_bollinger_bands xs w k).2.1.getD i none).map (fun q => (q : ℝ))) =
      osub (((calculate_bollinger_bands xs w k).2.1.getD i none).map (fun q => (q : ℝ)))
        ((calculate_bollinger_bands xs w k).2.2.getD i none) := by
  refine ⟨rfl, fun i => ?_⟩
  show osub ((bollinger_upper xs w k).getD i none)
      (((calculate_sma xs w).getD i none).map (fun q => (q : ℝ))) =
    osub (((calculate_sma xs w).getD i none).map (fun q => (q : ℝ)))
      ((bollinger_lower xs w k).getD i none)
  simp only [bollinger_upper, bollinger_lower, List.getD_eq_getElem?_getD,
    List.getElem?_zipWith]
  rcases hs : (calculate_sma xs w)[i]? with _ | (_ | s) <;>
    rcases hv : (rollingVar xs w)[i]? with _ | (_ | v) <;>
      simp [osub]

/-- C4: on a series in which no full trailing window has average loss zero,
every defined RSI point is a finite value in `[0, 100]`. -/
theorem rsi_bounded_spec (xs : List ℚ) (w : ℕ) (hw : 1 ≤ w)
    (hloss : ∀ o ∈ rsiLossAvg xs w, o ≠ some 0) :
    ∀ i, i < xs.length → w ≤ i + 1 →
      ∃ q, (calculate_rsi xs w).getD i FVal.nan = FVal.fin q ∧ 0 ≤ q ∧ q ≤ 100 := by
  intro i hi hwi
  have hgl : i < (gainList xs).length := by rw [gainList_length]; exact hi
  have hll : i < (lossList xs).length := by rw [lossList_length]; exact hi
  obtain ⟨gval, hgd⟩ : ∃ g, (rsiGainAvg xs w).getD i none = some g :=
    ⟨_, by rw [rsiGainAvg, rollingMean_getD _ w i hgl, if_pos ⟨hw, hwi⟩]⟩
  obtain ⟨lval, hld⟩ : ∃ l, (rsiLossAvg xs w).getD i none = some l :=
    ⟨_, by rw [rsiLossAvg, rollingMean_getD _ w i hll, if_pos ⟨hw, hwi⟩]⟩
  have hg0 : 0 ≤ gval := rollingMean_nonneg (gainList xs) w i (gainList_nonneg xs) _ hgd
  have hl0 : 0 ≤ lval := rollingMean_nonneg (lossList xs) w i (lossList_nonneg xs) _ hld
  have hlne : lval ≠ 0 := by
    intro h0
    have hmem := hloss _ (getD_mem_of_lt (rsiLossAvg xs w) i none
      (by rw [rsiLossAvg_length]; exact hi))
    rw [hld] at hmem
    exact hmem (by rw [h0])
  have hlpos : 0 < lval := lt_of_le_of_ne hl0 (Ne.symm hlne)
  have hr : 0 ≤ gval / lval := div_nonneg hg0 hlpos.le
  have hd : (1 : ℚ) + gval / lval ≠ 0 := by positivity
  refine ⟨100 - 100 / (1 + gval / lval), ?_, ?_, ?_⟩
  · rw [calculate_rsi_getD xs w i hi, hgd, hld]
    simp [toFVal, FVal.div, FVal.add, FVal.sub, hlne, hd]
  · have hle : 100 / (1 + gval / lval) ≤ 100 :=
      div_le_self (by norm_num) (by linarith)
    linarith
  · have h0 : 0 ≤ 100 / (1 + gval / lval) := div_nonneg (by norm_num) (by linarith)
    linarith

/-- Witness for C4 at the series `[3, 1, 2, 0]` with window `2` (every full
window contains a loss). -/
theorem rsi_bounded_spec_witness :
    1 ≤ 2 ∧
    (∀ o ∈ rsiLossAvg [3, 1, 2, 0] 2, o ≠ some 0) ∧
    (∀ i, i < ([3, 1, 2, 0] : List ℚ).length → 2 ≤ i + 1 →
      ∃ q, (calculate_rsi [3, 1, 2, 0] 2).getD i FVal.nan = FVal.fin q ∧
        0 ≤ q ∧ q ≤ 100) :=
  ⟨by decide,
    by
      norm_num [rsiLossAvg, rollingMean, lossList, diffList, List.range_succ]
      all_goals decide,
    rsi_bounded_spec [3, 1, 2, 0] 2 (by decide)
      (by
        norm_num [rsiLossAvg, rollingMean, lossList, diffList, List.range_succ]
        all_goals decide)⟩

/-- C5 counterexample: at index 1 of the series `[1, 2, 3]` with window 2
the trailing window's average loss is zero, yet `calculate_rsi` produces
the defined value `100` there (the float division by a zero average loss
gives `+inf`, not NaN, because the average gain is positive), refuting the
claim that every zero-average-loss point is undefined / not-a-number. -/
theorem rsi_zero_loss_counterexample :
    (rsiLossAvg [1, 2, 3] 2).getD 1 none = some 0 ∧
    (calculate_rsi [1, 2, 3] 2).getD 1 FVal.nan = FVal.fin 100 ∧
    ¬ ((calculate_rsi [1, 2, 3] 2).getD 1 FVal.nan).isNan = true := by
  refine ⟨?_, ?_, ?_⟩ <;>
    norm_num [calculate_rsi, rsiGainAvg, rsiLossAvg, rollingMean, gainList, lossList,
      diffList, toFVal, FVal.div, FVal.add, FVal.sub, FVal.isNan, List.range_succ]

/-- C5 amended: at a point whose trailing window has average loss zero,
`calculate_rsi` yields NaN when the average gain is zero as well (`0/0`),
but yields the defined value `100` when the average gain is positive
(division by zero gives `+inf` and the RSI formula collapses to `100`); in
neither case does it raise an error (the function is total). -/
theorem rsi_zero_loss_spec (xs : List ℚ) (w i : ℕ) (hi : i < xs.length)
    (hl : (rsiLossAvg xs w).getD i none = some 0) :
    ((rsiGainAvg xs w).getD i none = some 0 →
      (calculate_rsi xs w).getD i FVal.nan = FVal.nan) ∧
    (∀ g, (rsiGainAvg xs w).getD i none = some g → 0 < g →
      (calculate_rsi xs w).getD i FVal.nan = FVal.fin 100) := by
  constructor
  · intro hg
    rw [calculate_rsi_getD xs w i hi, hg, hl]
    simp [toFVal, FVal.div, FVal.add, FVal.sub]
  · intro g hg hgpos
    rw [calculate_rsi_getD xs w i hi, hg, hl]
    have hgne : g ≠ 0 := ne_of_gt hgpos
    simp [toFVal, FVal.div, FVal.add, FVal.sub, hgne, hgpos]

/-- Witness for C5 (amended) at the series `[1, 2, 3]`, window 2, index 1. -/
theorem rsi_zero_loss_spec_witness :
    1 < ([1, 2, 3] : List ℚ).length ∧
    (rsiLossAvg [1, 2, 3] 2).getD 1 none = some 0 ∧
    (((rsiGainAvg [1, 2, 3] 2).getD 1 none = some 0 →
      (calculate_rsi [1, 2, 3] 2).getD 1 FVal.nan = FVal.nan) ∧
    (∀ g, (rsiGainAvg [1, 2, 3] 2).getD 1 none = some g → 0 < g →
      (calculate_rsi [1, 2, 3] 2).getD 1 FVal.nan = FVal.fin 100)) :=
  ⟨by decide,
    by norm_num [rsiLossAvg, rollingMean, lossList, diffList, List.range_succ],
    rsi_zero_loss_spec [1, 2, 3] 2 1 (by decide)
      (by norm_num [rsiLossAvg, rollingMean, lossList, diffList, List.range_succ])⟩

/-- C6 counterexample: for the one-point series `[5]` and window `3 > 1`,
`calculate_ema` returns the defined point `[5]`, not an all-undefined
series — the `ewm(adjust=False)` recurrence has no warm-up, so the claim
that every indicator degrades to all-undefined for `w > L` fails for EMA. -/
theorem window_exceeds_length_counterexample :
    ([5] : List ℚ).length < 3 ∧
    calculate_ema [5] 3 = [5] ∧
    ¬ ((calculate_ema [5] 3).map some).all (fun o => o.isNone) = true := by
  decide

/-- C6 amended: with a window exceeding the series length, the
rolling-window indicators (SMA, all three Bollinger bands, RSI) return
all-undefined series aligned to the input's length and raise no error; the
EMA-based indicators (EMA and the MACD line) do not degrade — being seeded
causal recurrences they return a fully defined series of the same length. -/
theorem window_exceeds_length_spec (xs : List ℚ) (w fast slow signal : ℕ)
    (hw : 1 ≤ w) (hlen : xs.length < w) (hfast : xs.length < fast)
    (hslow : xs.length < slow) (hsig : xs.length < signal) :
    calculate_sma xs w = List.replicate xs.length none ∧
    (calculate_bollinger_bands xs w 2).1 = List.replicate xs.length none ∧
    (calculate_bollinger_bands xs w 2).2.1 = List.replicate xs.length none ∧
    (calculate_bollinger_bands xs w 2).2.2 = List.replicate xs.length none ∧
    calculate_rsi xs w = List.replicate xs.length FVal.nan ∧
    (calculate_ema xs w).length = xs.length ∧
    (∀ o ∈ (calculate_ema xs w).map some, o.isSome = true) ∧
    (calculate_macd xs fast slow signal).1.length = xs.length ∧
    (∀ o ∈ (calculate_macd xs fast slow signal).1.map some, o.isSome = true) := by
  have hsma : calculate_sma xs w = List.replicate xs.length none :=
    rollingMean_all_none xs w hlen
  have hvar : rollingVar xs w = List.replicate xs.length none :=
    rollingVar_all_none xs w hlen
  have hgain : rsiGainAvg xs w = List.replicate xs.length none := by
    rw [rsiGainAvg, ← gainList_length xs,
      rollingMean_all_none (gainList xs) w (by rw [gainList_length]; exact hlen)]
  have hlossm : rsiLossAvg xs w = List.replicate xs.length none := by
    rw [rsiLossAvg, ← lossList_length xs,
      rollingMean_all_none (lossList xs) w (by rw [lossList_length]; exact hlen)]
  refine ⟨hsma, ?_, hsma, ?_, ?_, ewmMean_length xs w, ?_, ?_, ?_⟩
  · show bollinger_upper xs w 2 = _
    rw [bollinger_upper, hsma, hvar, List.zipWith_replicate, min_self]
  · show bollinger_lower xs w 2 = _
    rw [bollinger_lower, hsma, hvar, List.zipWith_replicate, min_self]
  · rw [calculate_rsi, hgain, hlossm, List.zipWith_replicate, min_self,
      List.map_replicate]
    rfl
  · intro o ho
    obtain ⟨x, -, rfl⟩ := List.mem_map.mp ho
    rfl
  · show (List.zipWith (fun a b => a - b) (ewmMean xs fast) (ewmMean xs slow)).length = _
    rw [List.length_zipWith, ewmMean_length, ewmMean_length, min_self]
  · intro o ho
    obtain ⟨x, -, rfl⟩ := List.mem_map.mp ho
    rfl

/-- Witness for C6 (amended) at the series `[5]` with all windows `2`. -/
theorem window_exceeds_length_spec_witness :
    1 ≤ 2 ∧ ([5] : List ℚ).length < 2 ∧
    (calculate_sma [5] 2 = List.replicate ([5] : List ℚ).length none ∧
    (calculate_bollinger_bands [5] 2 2).1 =
      List.replicate ([5] : List ℚ).length none ∧
    (calculate_bollinger_bands [5] 2 2).2.1 =
      List.replicate ([5] : List ℚ).length none ∧
    (calculate_bollinger_bands [5] 2 2).2.2 =
      List.replicate ([5] : List ℚ).length none ∧
    calculate_rsi [5] 2 = List.replicate ([5] : List ℚ).length FVal.nan ∧
    (calculate_ema [5] 2).length = ([5] : List ℚ).length ∧
    (∀ o ∈ (calculate_ema [5] 2).map some, o.isSome = true) ∧
    (calculate_macd [5] 2 2 2).1.length = ([5] : List ℚ).length ∧
    (∀ o ∈ (calculate_macd [5] 2 2 2).1.map some, o.isSome = true)) :=
  ⟨by decide, by decide,
    window_exceeds_length_spec [5] 2 2 2 2 (by decide) (by decide) (by decide)
      (by decide) (by decide)⟩

/-- C8: a provider result with zero rows makes `download_stock_data` return
no series together with the fixed "no data" message (it neither returns an
empty series nor raises). -/
theorem download_no_data_spec (df : DF) (h : df.rows = []) :
    download_stock_data (.ok df) =
      (none, some "No data available for this combination") := by
  simp [download_stock_data, DF.isEmpty, h]

/-- Witness for C8 at a table with one column and zero rows. -/
theorem download_no_data_spec_witness :
    (DF.mk (Cols.flat ["Close"]) [] []).rows = [] ∧
    download_stock_data (.ok (DF.mk (Cols.flat ["Close"]) [] [])) =
      (none, some "No data available for this combination") :=
  ⟨rfl, download_no_data_spec (DF.mk (Cols.flat ["Close"]) [] []) rfl⟩

/-- C10: `fix_dataframe_columns` only relabels columns: for every input
(including `None` and zero-row tables, which come back unchanged) the
timestamp index and every cell value of the output are identical to the
input's. -/
theorem fix_columns_frame_spec (odf : Option DF) :
    (fix_dataframe_columns odf).map (fun d => (d.index, d.rows)) =
      odf.map (fun d => (d.index, d.rows)) ∧
    fix_dataframe_columns none = none ∧
    (∀ df : DF, df.rows = [] → fix_dataframe_columns (some df) = some df) := by
  refine ⟨?_, rfl, ?_⟩
  · cases odf with
    | none => rfl
    | some df =>
      simp only [fix_dataframe_columns]
      by_cases h : df.isEmpty <;> simp [h]
  · intro df h
    simp [fix_dataframe_columns, DF.isEmpty, h]

/-- Witness for C10: the inner zero-row clause discharged at a concrete
one-column, zero-row table. -/
theorem fix_columns_frame_spec_witness :
    (DF.mk (Cols.flat ["Close"]) [] []).rows = [] ∧
    fix_dataframe_columns (some (DF.mk (Cols.flat ["Close"]) [] [])) =
      some (DF.mk (Cols.flat ["Close"]) [] []) :=
  ⟨rfl, (fix_columns_frame_spec (some (DF.mk (Cols.flat ["Close"]) [] []))).2.2
    (DF.mk (Cols.flat ["Close"]) [] []) rfl⟩

/-! ### Helper lemmas about the column-repair loop -/

theorem renameStep_of_mem {names : List String} {c : String} (h : c ∈ names) :
    renameStep names c = names := by
  simp [renameStep, h]

theorem renameStep_of_find?_none {names : List String} {c : String}
    (hc : c ∉ names)
    (h : names.find? (fun x => lowerStr x == lowerStr c) = none) :
    renameStep names c = names := by
  simp [renameStep, hc, h]

theorem renameStep_of_find?_some {names : List String} {c n : String}
    (hc : c ∉ names)
    (h : names.find? (fun x => lowerStr x == lowerStr c) = some n) :
    renameStep names c = names.map (fun x => if x == n then c else x) := by
  simp [renameStep, hc, h]

theorem renameStep_length (names : List String) (c : String) :
    (renameStep names c).length = names.length := by
  by_cases h : c ∈ names
  · rw [renameStep_of_mem h]
  · cases hf : names.find? (fun x => lowerStr x == lowerStr c) with
    | none => rw [renameStep_of_find?_none h hf]
    | some n => rw [renameStep_of_find?_some h hf, List.length_map]

theorem mem_renameStep_self (names : List String) (c : String) :
    c ∈ renameStep names c ↔ ∃ n ∈ names, lowerStr n = lowerStr c := by
  by_cases h : c ∈ names
  · rw [renameStep_of_mem h]
    exact ⟨fun _ => ⟨c, h, rfl⟩, fun _ => h⟩
  · cases hf : names.find? (fun x => lowerStr x == lowerStr c) with
    | none =>
      rw [renameStep_of_find?_none h hf]
      constructor
      · intro hc
        exact absurd hc h
      · rintro ⟨n, hn, hlow⟩
        have hn' := List.find?_eq_none.mp hf n hn
        simp [hlow] at hn'
    | some n =>
      have hn_mem : n ∈ names := List.mem_of_find?_eq_some hf
      rw [renameStep_of_find?_some h hf]
      constructor
      · intro _
        exact ⟨n, hn_mem, by simpa using List.find?_some hf⟩
      · intro _
        exact List.mem_map.mpr ⟨n, hn_mem, by simp⟩

theorem mem_renameStep_of_ne (names : List String) (c c' : String)
    (hne : lowerStr c' ≠ lowerStr c) :
    c' ∈ renameStep names c ↔ c' ∈ names := by
  by_cases h : c ∈ names
  · rw [renameStep_of_mem h]
  · cases hf : names.find? (fun x => lowerStr x == lowerStr c) with
    | none => rw [renameStep_of_find?_none h hf]
    | some n =>
      have hn_low : lowerStr n = lowerStr c := by simpa using List.find?_some hf
      rw [renameStep_of_find?_some h hf]
      constructor
      · intro hmem
        obtain ⟨x, hx, hxe⟩ := List.mem_map.mp hmem
        by_cases hxn : x == n
        · rw [if_pos hxn] at hxe
          subst hxe
          exact absurd rfl hne
        · rw [if_neg hxn] at hxe
          subst hxe
          exact hx
      · intro hmem
        have hcn : ¬ (c' == n) := by
          intro hb
          have hb' : c' = n := by simpa using hb
          subst hb'
          exact hne hn_low
        exact List.mem_map.mpr ⟨c', hmem, by rw [if_neg hcn]⟩

theorem exists_low_renameStep (names : List String) (c c' : String)
    (hne : lowerStr c' ≠ lowerStr c) :
    (∃ n ∈ renameStep names c, lowerStr n = lowerStr c') ↔
      ∃ n ∈ names, lowerStr n = lowerStr c' := by
  by_cases h : c ∈ names
  · rw [renameStep_of_mem h]
  · cases hf : names.find? (fun x => lowerStr x == lowerStr c) with
    | none => rw [renameStep_of_find?_none h hf]
    | some n =>
      have hn_low : lowerStr n = lowerStr c := by simpa using List.find?_some hf
      rw [renameStep_of_find?_some h hf]
      constructor
      · rintro ⟨x, hx, hlow⟩
        obtain ⟨y, hy, hye⟩ := List.mem_map.mp hx
        by_cases hyn : y == n
        · rw [if_pos hyn] at hye
          subst hye
          exact absurd hlow.symm hne
        · rw [if_neg hyn] at hye
          subst hye
          exact ⟨y, hy, hlow⟩
      · rintro ⟨x, hx, hlow⟩
        have hxn : ¬ (x == n) := by
          intro hb
          have hb' : x = n := by simpa using hb
          subst hb'
          apply hne
          rw [← hlow]
          exact hn_low
        exact ⟨x, List.mem_map.mpr ⟨x, hx, by rw [if_neg hxn]⟩, hlow⟩

theorem getD_map_of_lt (f : String → String) (l : List String) (j : ℕ)
    (hj : j < l.length) :
    (l.map f).getD j "" = f (l.getD j "") := by
  rw [List.getD_eq_getElem?_getD, List.getElem?_map, List.getElem?_eq_getElem hj,
    List.getD_eq_getElem?_getD, List.getElem?_eq_getElem hj]
  rfl

theorem renameStep_getD_eq_of_ne (names : List String) (c c' : String) (j : ℕ)
    (hj : j < names.length) (hne : lowerStr c' ≠ lowerStr c) :
    ((renameStep names c).getD j "" = c' ↔ names.getD j "" = c') := by
  by_cases h : c ∈ names
  · rw [renameStep_of_mem h]
  · cases hf : names.find? (fun x => lowerStr x == lowerStr c) with
    | none => rw [renameStep_of_find?_none h hf]
    | some n =>
      have hn_low : lowerStr n = lowerStr c := by simpa using List.find?_some hf
      rw [renameStep_of_find?_some h hf, getD_map_of_lt _ _ j hj]
      by_cases hxn : names.getD j "" == n
      · rw [if_pos hxn]
        have hx : names.getD j "" = n := by simpa using hxn
        constructor
        · intro hcc
          exact absurd (hcc ▸ rfl) hne
        · intro hcc
          rw [hcc] at hx
          exact absurd (hx ▸ hn_low) hne
      · rw [if_neg hxn]

theorem find?_map_invariant (f : String → String) (p : String → Bool)
    (l : List String) (h : ∀ x, p (f x) = p x ∧ (p x = true → f x = x)) :
    (l.map f).find? p = l.find? p := by
  induction l with
  | nil => rfl
  | cons a l ih =>
    rw [List.map_cons]
    by_cases hpa : p a = true
    · rw [List.find?_cons_of_pos _ (by rw [(h a).1]; exact hpa),
        List.find?_cons_of_pos _ hpa, (h a).2 hpa]
    · rw [List.find?_cons_of_neg _ (by rw [(h a).1]; simpa using hpa),
        List.find?_cons_of_neg _ hpa, ih]

theorem find?_renameStep_of_ne (names : List String) (d c : String)
    (hne : lowerStr c ≠ lowerStr d) :
    (renameStep names d).find? (fun x => lowerStr x == lowerStr c) =
      names.find? (fun x => lowerStr x == lowerStr c) := by
  by_cases h : d ∈ names
  · rw [renameStep_of_mem h]
  · cases hf : names.find? (fun x => lowerStr x == lowerStr d) with
    | none => rw [renameStep_of_find?_none h hf]
    | some m =>
      have hm_low : lowerStr m = lowerStr d := by simpa using List.find?_some hf
      rw [renameStep_of_find?_some h hf]
      apply find?_map_invariant
      intro x
      constructor
      · by_cases hxm : x == m
        · rw [if_pos hxm]
          have hx : x = m := by simpa using hxm
          subst hx
          show (lowerStr d == lowerStr c) = (lowerStr x == lowerStr c)
          rw [hm_low]
        · rw [if_neg hxm]
      · intro hpx
        have hx_low : lowerStr x = lowerStr c := by simpa using hpx
        have hxm : ¬ (x == m) := by
          intro hb
          have hb' : x = m := by simpa using hb
          subst hb'
          apply hne
          rw [← hx_low]
          exact hm_low
        rw [if_neg hxm]

theorem foldl_renameStep_length (cs names : List String) :
    (cs.foldl renameStep names).length = names.length := by
  induction cs generalizing names with
  | nil => rfl
  | cons d cs ih => rw [List.foldl_cons, ih, renameStep_length]

theorem mem_foldl_renameStep_of_forall_ne (cs names : List String) (c' : String)
    (h : ∀ c ∈ cs, lowerStr c' ≠ lowerStr c) :
    c' ∈ cs.foldl renameStep names ↔ c' ∈ names := by
  induction cs generalizing names with
  | nil => exact Iff.rfl
  | cons d cs ih =>
    rw [List.foldl_cons, ih _ (fun c hc => h c (List.mem_cons_of_mem d hc)),
      mem_renameStep_of_ne names d c' (h d (List.mem_cons_self d cs))]

theorem exists_low_foldl_of_forall_ne (cs names : List String) (c' : String)
    (h : ∀ c ∈ cs, lowerStr c' ≠ lowerStr c) :
    (∃ n ∈ cs.foldl renameStep names, lowerStr n = lowerStr c') ↔
      ∃ n ∈ names, lowerStr n = lowerStr c' := by
  induction cs generalizing names with
  | nil => exact Iff.rfl
  | cons d cs ih =>
    rw [List.foldl_cons, ih _ (fun c hc => h c (List.mem_cons_of_mem d hc)),
      exists_low_renameStep names d c' (h d (List.mem_cons_self d cs))]

theorem foldl_getD_eq_of_forall_ne (cs names : List String) (c' : String) (j : ℕ)
    (hj : j < names.length) (h : ∀ c ∈ cs, lowerStr c' ≠ lowerStr c) :
    ((cs.foldl renameStep names).getD j "" = c' ↔ names.getD j "" = c') := by
  induction cs generalizing names with
  | nil => exact Iff.rfl
  | cons d cs ih =>
    rw [List.foldl_cons,
      ih _ (by rw [renameStep_length]; exact hj)
        (fun c hc => h c (List.mem_cons_of_mem d hc)),
      renameStep_getD_eq_of_ne names d c' j hj (h d (List.mem_cons_self d cs))]

theorem mem_foldl_renameStep (cs names : List String) (c : String) (hc : c ∈ cs)
    (hdist : cs.Pairwise (fun a b => lowerStr a ≠ lowerStr b)) :
    (c ∈ cs.foldl renameStep names ↔ ∃ n ∈ names, lowerStr n = lowerStr c) := by
  induction cs generalizing names with
  | nil => cases hc
  | cons d cs ih =>
    rw [List.foldl_cons]
    obtain ⟨hhead, htail⟩ := List.pairwise_cons.mp hdist
    rcases List.mem_cons.mp hc with rfl | hc'
    · rw [mem_foldl_renameStep_of_forall_ne cs _ c hhead]
      exact mem_renameStep_self names c
    · have hdl : lowerStr c ≠ lowerStr d := fun h' => hhead c hc' h'.symm
      rw [ih _ hc' htail, exists_low_renameStep names d c hdl]

theorem foldl_renameStep_first_match (cs names : List String) (c : String)
    (hc : c ∈ cs) (hdist : cs.Pairwise (fun a b => lowerStr a ≠ lowerStr b))
    (habs : c ∉ names) (n : String)
    (hfind : names.find? (fun x => lowerStr x == lowerStr c) = some n)
    (j : ℕ) (hj : j < names.length) :
    ((cs.foldl renameStep names).getD j "" = c ↔ names.getD j "" = n) := by
  induction cs generalizing names with
  | nil => cases hc
  | cons d cs ih =>
    rw [List.foldl_cons]
    obtain ⟨hhead, htail⟩ := List.pairwise_cons.mp hdist
    have hn_low : lowerStr n = lowerStr c := by simpa using List.find?_some hfind
    rcases List.mem_cons.mp hc with rfl | hc'
    · rw [foldl_getD_eq_of_forall_ne cs _ c j
        (by rw [renameStep_length]; exact hj) hhead,
        renameStep_of_find?_some habs hfind, getD_map_of_lt _ _ j hj]
      by_cases hxn : names.getD j "" == n
      · rw [if_pos hxn]
        have hx : names.getD j "" = n := by simpa using hxn
        exact ⟨fun _ => hx, fun _ => rfl⟩
      · rw [if_neg hxn]
        have hxn' : names.getD j "" ≠ n := by simpa using hxn
        constructor
        · intro hcc
          exact absurd (hcc ▸ getD_mem_of_lt names j "" hj) habs
        · intro hc2
          exact absurd hc2 hxn'
    · have hdl : lowerStr c ≠ lowerStr d := fun h' => hhead c hc' h'.symm
      have habs' : c ∉ renameStep names d := by
        rw [mem_renameStep_of_ne names d c hdl]
        exact habs
      have hfind' :
          (renameStep names d).find? (fun x => lowerStr x == lowerStr c) = some n := by
        rw [find?_renameStep_of_ne names d c hdl]
        exact hfind
      rw [ih _ hc' htail habs' hfind' (by rw [renameStep_length]; exact hj),
        renameStep_getD_eq_of_ne names d n j hj (by rw [hn_low]; exact hdl)]

/-- C7: on a non-empty table with nested (two-level) columns, the normalizer
flattens to the outer level only, keeps the index and every cell value
identical, and repairs the five expected column names: an expected name is
present in the result exactly when some outer label matches it
case-insensitively; labels matching no expected name are left as their outer
level; and for an absent expected name with a first case-insensitive match
`n`, exactly the positions labelled `n` end up bearing the expected name. -/
theorem fix_columns_nested_spec (df : DF) (ns : List (String × String))
    (hcols : df.cols = Cols.nested ns) (hne : df.isEmpty = false) :
    fix_dataframe_columns (some df) =
      some (DF.mk (Cols.flat (fixNames (ns.map Prod.fst))) df.index df.rows) ∧
    (fixNames (ns.map Prod.fst)).length = ns.length ∧
    (∀ c ∈ expected_cols,
      (c ∈ fixNames (ns.map Prod.fst) ↔ ∃ p ∈ ns, lowerStr p.1 = lowerStr c)) ∧
    (∀ j, j < ns.length →
      (∀ c ∈ expected_cols, lowerStr ((ns.map Prod.fst).getD j "") ≠ lowerStr c) →
      (fixNames (ns.map Prod.fst)).getD j "" = (ns.map Prod.fst).getD j "") ∧
    (∀ c ∈ expected_cols, c ∉ ns.map Prod.fst →
      ∀ n, (ns.map Prod.fst).find? (fun x => lowerStr x == lowerStr c) = some n →
        ∀ j, j < ns.length →
          ((fixNames (ns.map Prod.fst)).getD j "" = c ↔
            (ns.map Prod.fst).getD j "" = n)) := by
  have hdist : expected_cols.Pairwise (fun a b => lowerStr a ≠ lowerStr b) := by
    decide
  refine ⟨?_, ?_, ?_, ?_, ?_⟩
  · simp only [fix_dataframe_columns]
    rw [if_neg (by rw [hne]; exact Bool.false_ne_true), hcols]
    rfl
  · rw [fixNames, foldl_renameStep_length, List.length_map]
  · intro c hc
    rw [fixNames, mem_foldl_renameStep expected_cols _ c hc hdist]
    constructor
    · rintro ⟨x, hx, hlow⟩
      obtain ⟨p, hp, rfl⟩ := List.mem_map.mp hx
      exact ⟨p, hp, hlow⟩
    · rintro ⟨p, hp, hlow⟩
      exact ⟨p.1, List.mem_map.mpr ⟨p, hp, rfl⟩, hlow⟩
  · intro j hj hall
    have hj' : j < (ns.map Prod.fst).length := by rw [List.length_map]; exact hj
    exact (foldl_getD_eq_of_forall_ne expected_cols _ _ j hj' hall).mpr rfl
  · intro c hc habs n hfind j hj
    have hj' : j < (ns.map Prod.fst).length := by rw [List.length_map]; exact hj
    exact foldl_renameStep_first_match expected_cols _ c hc hdist habs n hfind j hj'

/-- Witness for C7: a non-empty two-level table whose hypotheses are
discharged concretely, with the flattening conclusion of the theorem. -/
theorem fix_columns_nested_spec_witness :
    (DF.mk (Cols.nested [("Close", "VOO"), ("open", "VOO")]) [0] [[1, 2]]).cols =
      Cols.nested [("Close", "VOO"), ("open", "VOO")] ∧
    (DF.mk (Cols.nested [("Close", "VOO"), ("open", "VOO")]) [0] [[1, 2]]).isEmpty
      = false ∧
    fix_dataframe_columns
        (some (DF.mk (Cols.nested [("Close", "VOO"), ("open", "VOO")]) [0] [[1, 2]])) =
      some (DF.mk
        (Cols.flat (fixNames ([("Close", "VOO"), ("open", "VOO")].map Prod.fst)))
        [0] [[1, 2]]) :=
  ⟨rfl, rfl,
    (fix_columns_nested_spec
      (DF.mk (Cols.nested [("Close", "VOO"), ("open", "VOO")]) [0] [[1, 2]])
      [("Close", "VOO"), ("open", "VOO")] rfl rfl).1⟩

end StockChartPro
